import Mathlib

/-!
# Verification of the CVSP solver's formulation and constraint-generation engine

Shallow embedding of the Capacitated Vertex Separator Problem solver
(`src/cvsp.py`, `main.py`).  The external MIP solvers (Gurobi / OR-Tools /
SCIP) are modelled as oracles: a solve outcome is a status together with a
binary variable assignment, and the ILPs that the code builds are embedded
as explicit feasibility predicates over those assignments, with the optimum
taken over the (finite) set of feasible points.

Contents:
* the packing-oracle ILP of `n_bins_to_pack_gurobi` / `n_bins_to_pack_ortools`
  (one binary item per *node* of the subgraph, one bin slot per item);
* the subset enumerators (`subsets` of `main.py`, and the combinations-based
  `W` construction of the eager formulations F3/F4);
* finite graphs, induced subgraphs and connected components (fuel-based
  closure, mirroring `networkx.connected_components`);
* the cover-cut generation of formulations 3 and 4, eager and lazy;
* the solver façade `cvsp_solver` with Python's dict/list lookup semantics;
* the solution extraction shared by all partition-form formulations.

The file is laid out with all definitions first, followed by all theorems.
-/

namespace CVSP

open Finset

/-! # Definitions -/

/-! ## Ceiling division -/

/-- `ceilDiv m B = ⌈m / B⌉` for natural numbers (`(m + B - 1) / B`). -/
def ceilDiv (m B : ℕ) : ℕ := (m + B - 1) / B

/-! ## The packing-oracle ILP

`n_bins_to_pack_gurobi(graph, bin_size)` builds an ILP with binary variables
`x[i, j]` (item `i` packed in bin `j`) and `y[j]` (bin `j` used), where both
items and bins range over the *nodes* of the given subgraph (one item per
node, one bin slot per item).  Constraints: each item is in exactly one bin
(`Σ_j x[i,j] = 1`, modelled as an assignment function), and
`Σ_i x[i,j] ≤ y[j] * bin_size`.  Objective: minimise `Σ_j y[j]`.  On a
non-optimal status the code returns `inf`; we model that as `⊤ : WithTop ℕ`,
which coincides with the ILP being infeasible.
`n_bins_to_pack_ortools` builds the identical model through OR-Tools. -/

/-- A candidate point of the packing ILP on `m` unit items: an item-to-bin
assignment (the `x` variables with their `= 1` row sums) and the bin-used
indicators (the `y` variables). -/
abbrev PackPoint (m : ℕ) := (Fin m → Fin m) × (Fin m → Bool)

/-- `Σ_i x[i,j]`: the number of items the assignment puts into bin `j`. -/
def binWeight {m : ℕ} (assign : Fin m → Fin m) (j : Fin m) : ℕ :=
  (univ.filter (fun i => assign i = j)).card

/-- The capacity constraints `Σ_i x[i,j] ≤ y[j] * bin_size` of the oracle ILP. -/
def PackFeasible (m B : ℕ) (p : PackPoint m) : Prop :=
  ∀ j, binWeight p.1 j ≤ if p.2 j = true then B else 0

instance (m B : ℕ) : DecidablePred (PackFeasible m B) := fun _ => by
  unfold PackFeasible; infer_instance

/-- The oracle ILP objective `Σ_j y[j]`. -/
def packObj {m : ℕ} (p : PackPoint m) : ℕ :=
  (univ.filter (fun j => p.2 j = true)).card

/-- The bin count the code reads back from a solved model: the number of bins
`j` with `y[j] = 1` and a positive packed weight. -/
def packCount {m : ℕ} (p : PackPoint m) : ℕ :=
  (univ.filter (fun j => p.2 j = true ∧ 0 < binWeight p.1 j)).card

/-- A point the external solver may legitimately return with status
`OPTIMAL`: feasible, with minimal objective. -/
def IsPackOpt (m B : ℕ) (p : PackPoint m) : Prop :=
  PackFeasible m B p ∧ ∀ q, PackFeasible m B q → packObj p ≤ packObj q

instance (m B : ℕ) (p : PackPoint m) : Decidable (IsPackOpt m B p) := by
  unfold IsPackOpt; infer_instance

/-- The optimal value of the oracle ILP (`⊤` when infeasible, matching the
`inf` the code returns on a non-`OPTIMAL` status). -/
def packVal (m B : ℕ) : WithTop ℕ :=
  ((univ : Finset (PackPoint m)).filter (PackFeasible m B)).inf
    (fun p => (packObj p : WithTop ℕ))

/-- The canonical packing: item `i` goes to bin `⌊i / B⌋`, and the first
`ceilDiv m B` bins are marked used. -/
def canonicalPack (m B : ℕ) : PackPoint m :=
  (fun i => ⟨i.val / B, lt_of_le_of_lt (Nat.div_le_self _ _) i.isLt⟩,
   fun j => decide (j.val < ceilDiv m B))

/-! ## Bin packing as the spec's oracle contract states it

The spec's Packing Oracle contract (§4.6): "given a set of item weights
(component sizes) and bin capacity B, return the minimum integer number of
bins required such that no bin's total weight exceeds B, each item assigned
to exactly one bin."  The following definitions follow the spec's words (the
items are the weighted components, indivisible), to be compared with the
code's ILP above, whose items are the individual nodes. -/

/-- Total weight the assignment puts into bin `j`, for weighted items `ws`. -/
def specBinLoad (ws : List ℕ) (assign : Fin ws.length → Fin ws.length)
    (j : Fin ws.length) : ℕ :=
  ∑ i ∈ univ.filter (fun i => assign i = j), ws.get i

/-- No bin's total weight exceeds `B`; each item is in exactly one bin. -/
def SpecPackFeasible (ws : List ℕ) (B : ℕ)
    (assign : Fin ws.length → Fin ws.length) : Prop :=
  ∀ j, specBinLoad ws assign j ≤ B

instance (ws : List ℕ) (B : ℕ) : DecidablePred (SpecPackFeasible ws B) := fun _ => by
  unfold SpecPackFeasible; infer_instance

/-- The number of bins an assignment uses (bins receiving at least one item). -/
def specUsedBins (ws : List ℕ) (assign : Fin ws.length → Fin ws.length) : ℕ :=
  (univ.filter (fun j => (univ.filter (fun i => assign i = j)).Nonempty)).card

/-- The minimum number of capacity-`B` bins needed for the indivisible
weighted items `ws`, as the spec's oracle contract demands. -/
def specMinBins (ws : List ℕ) (B : ℕ) : WithTop ℕ :=
  ((univ : Finset (Fin ws.length → Fin ws.length)).filter
      (SpecPackFeasible ws B)).inf
    (fun a => (specUsedBins ws a : WithTop ℕ))

/-! ## Subset enumerators

`subsets(nodes)` of `main.py` recursively produces all combinations of the
given nodes: `subsets [] = [[]]`, and for `x :: xs` it prepends `x` to every
subset of `xs` and appends the subsets of `xs` themselves.

The eager formulations of `src/cvsp.py` instead build
`W = [c for size in range(1, len(V)) for c in combinations(V, size)]`,
i.e. all subsets of size `1 .. len(V) - 1`; `combinations(V, k)` is
modelled by `List.sublistsLen k V` (the `k`-element sublists; the
enumeration order differs from `itertools` but the produced family, its
multiplicities and its size are the same). -/

/-- The recursive `subsets` function of `main.py`. -/
def subsets {α : Type _} : List α → List (List α)
  | [] => [[]]
  | x :: xs => (subsets xs).map (fun y => x :: y) ++ subsets xs

/-- The `W` list built by the eager formulations 3 and 4:
all subsets of `V` of size `1 .. len(V) - 1`. -/
def wChoices {α : Type _} (V : List α) : List (List α) :=
  (List.range' 1 (V.length - 1)).flatMap (fun k => List.sublistsLen k V)

/-! ## Finite graphs and connected components

`networkx.Graph` values are modelled as symmetric Boolean adjacency matrices
on `Fin n`.  `graph.subgraph(w)` is the restriction to a node set `w`, and
`nx.connected_components` is modelled through the reflexive-transitive
closure of adjacency within `w`, computed by `n` rounds of neighbour
expansion (enough fuel to saturate on `n` nodes). -/

/-- A finite undirected graph on `n` nodes (`networkx.Graph` stores each
edge in both directions). -/
structure Graph (n : ℕ) where
  adj : Fin n → Fin n → Bool
  symm : ∀ u v, adj u v = adj v u

/-- One round of neighbour expansion inside the node set `w`. -/
def neighbStep {n : ℕ} (g : Graph n) (w s : Finset (Fin n)) : Finset (Fin n) :=
  s ∪ w.filter (fun u => ∃ v ∈ s, g.adj v u = true)

/-- `t` rounds of neighbour expansion inside `w`, starting from `s`. -/
def compIter {n : ℕ} (g : Graph n) (w : Finset (Fin n)) :
    ℕ → Finset (Fin n) → Finset (Fin n)
  | 0, s => s
  | t + 1, s => compIter g w t (neighbStep g w s)

/-- The connected component of `v` in the subgraph induced on `w`
(`n` expansion rounds saturate any component on `n` nodes). -/
def component {n : ℕ} (g : Graph n) (w : Finset (Fin n)) (v : Fin n) : Finset (Fin n) :=
  compIter g w n {v}

/-- `any(len(cc) > b_value for cc in nx.connected_components(gw))`:
some connected component of the subgraph induced on `w` has more
than `B` nodes. -/
def HasBigComp {n : ℕ} (g : Graph n) (w : Finset (Fin n)) (B : ℕ) : Prop :=
  ∃ v ∈ w, B < (component g w v).card

instance {n : ℕ} (g : Graph n) (w : Finset (Fin n)) (B : ℕ) :
    Decidable (HasBigComp g w B) := by
  unfold HasBigComp; infer_instance

/-- The value `ow` computed for a candidate subset `w` in formulation 3:
`inf` (`⊤`) when some component of the induced subgraph exceeds `B`,
otherwise the packing-oracle optimum on the `w.card` nodes of the induced
subgraph (the solver is assumed to return an optimal packing, whose read-back
bin count equals `packVal` by `packCount_eq_obj` / `packOpt_obj_eq`). -/
def owVal {n : ℕ} (g : Graph n) (w : Finset (Fin n)) (B : ℕ) : WithTop ℕ :=
  if HasBigComp g w B then ⊤ else packVal w.card B

/-- The test `ow > k_value` guarding `model.addConstr(sum(x[v] for v in w) >= 1)`. -/
def AddsCut {n : ℕ} (g : Graph n) (K B : ℕ) (w : Finset (Fin n)) : Prop :=
  (K : WithTop ℕ) < owVal g w B

instance {n : ℕ} (g : Graph n) (K B : ℕ) (w : Finset (Fin n)) :
    Decidable (AddsCut g K B w) := by
  unfold AddsCut; infer_instance

/-- The `W` list of the eager formulations, as node sets: all subsets of the
node set with `1 ≤ card ≤ n - 1` (sizes `range(1, len(V))`,
`combinations(V, size)` modelled by the size-`k` sublists of the node list). -/
def wFinsets (n : ℕ) : List (Finset (Fin n)) :=
  (List.range' 1 (n - 1)).flatMap
    (fun k => (List.sublistsLen k (List.finRange n)).map (fun l => l.toFinset))

/-- The cover constraints `Σ_{v∈w} x[v] ≥ 1` added by the eager formulation 3
(`formulation_3_gurobi` / `formulation_3_ortools`): the loop over `W` keeps
exactly the subsets whose `ow` exceeds `k_value`. -/
def f3CoverCuts {n : ℕ} (g : Graph n) (K B : ℕ) : List (Finset (Fin n)) :=
  (wFinsets n).foldr (fun w acc => if AddsCut g K B w then w :: acc else acc) []

/-- The connected components of the subgraph induced on `w`
(`nx.connected_components(gw)`, each component listed once). -/
def componentsList {n : ℕ} (g : Graph n) (w : Finset (Fin n)) : List (Finset (Fin n)) :=
  (((List.finRange n).filter (fun v => decide (v ∈ w))).map
    (fun v => component g w v)).dedup

/-- The constraints added by the eager formulation 4
(`formulation_4_gurobi` / `formulation_4_ortools`): for each `w ∈ W`, one
cover constraint per connected component `C` with `len(C) == b_value + 1`.
The second parameter embeds the ignored `_` argument of the Python function. -/
def f4EagerCuts {n : ℕ} (g : Graph n) (_kIgnored B : ℕ) : List (Finset (Fin n)) :=
  (wFinsets n).foldr
    (fun w acc => (componentsList g w).filter (fun C => C.card = B + 1) ++ acc) []

/-- The complement of an incumbent: the nodes whose `x` value is below the
`0.1` threshold in the lazy callbacks, i.e. the nodes not chosen as
separator. -/
def complSet {n : ℕ} (x : Fin n → Bool) : Finset (Fin n) :=
  univ.filter (fun v => x v = false)

/-- The lazy cuts of `formulation_4_lazy_gurobi.sec_lazy` at an incumbent
`x`: one cover constraint per connected component `C` of the subgraph
induced on the incumbent's complement with `len(C) > b_value`. -/
def f4LazyCuts {n : ℕ} (g : Graph n) (B : ℕ) (x : Fin n → Bool) : List (Finset (Fin n)) :=
  (componentsList g (complSet x)).filter (fun C => B < C.card)

/-- An incumbent satisfies every cover constraint of the eager formulation 3
model (the integer points the eager model admits). -/
def EagerFeasible {n : ℕ} (g : Graph n) (K B : ℕ) (x : Fin n → Bool) : Prop :=
  ∀ w ∈ f3CoverCuts g K B, ∃ v ∈ w, x v = true

instance {n : ℕ} (g : Graph n) (K B : ℕ) :
    DecidablePred (EagerFeasible g K B) := fun _ => by
  unfold EagerFeasible; infer_instance

/-- `formulation_3_lazy_gurobi.sec_lazy` accepts an incumbent (adds no cut)
exactly when the `ow > k_value` test fails on the incumbent's complement. -/
def LazyAccepts {n : ℕ} (g : Graph n) (K B : ℕ) (x : Fin n → Bool) : Prop :=
  ¬ AddsCut g K B (complSet x)

instance {n : ℕ} (g : Graph n) (K B : ℕ) :
    DecidablePred (LazyAccepts g K B) := fun _ => by
  unfold LazyAccepts; infer_instance

/-- The objective `Σ_v x[v]` of formulations 3 and 4 at an incumbent:
the size of the separator it selects. -/
def selCard {n : ℕ} (x : Fin n → Bool) : ℕ :=
  (univ.filter (fun v => x v = true)).card

/-- The optimal objective value of the eager formulation 3 model. -/
def eagerOptVal {n : ℕ} (g : Graph n) (K B : ℕ) : WithTop ℕ :=
  ((univ : Finset (Fin n → Bool)).filter (EagerFeasible g K B)).inf
    (fun x => (selCard x : WithTop ℕ))

/-- The optimal objective value of the lazy formulation 3 search: the best
objective among the incumbents the callback accepts (Gurobi's lazy-constraint
protocol returns an accepted incumbent of minimal objective). -/
def lazyOptVal {n : ℕ} (g : Graph n) (K B : ℕ) : WithTop ℕ :=
  ((univ : Finset (Fin n → Bool)).filter (LazyAccepts g K B)).inf
    (fun x => (selCard x : WithTop ℕ))

/-- The two-node path graph (one edge). -/
def pathGraph2 : Graph 2 :=
  ⟨fun u v => decide (u ≠ v), by decide⟩

/-- Two isolated nodes (no edges). -/
def isolatedGraph2 : Graph 2 :=
  ⟨fun _ _ => false, fun _ _ => rfl⟩

/-- Three disjoint edges: 6 nodes paired as 0-1, 2-3, 4-5, giving three
connected components of two nodes each. -/
def threeEdgesGraph6 : Graph 6 :=
  ⟨fun u v => decide (u ≠ v ∧ u.val / 2 = v.val / 2), by decide⟩

/-! ## The solver façade, dispatch and solution extraction

`cvsp_solver` looks the library name up in a dict of formulation lists
(`dict.get` returns `None` for unknown keys, and subscripting `None` raises
`TypeError`), then indexes the list with Python list semantics (negative
indices count from the end; out-of-range indices raise `IndexError`) and
calls the selected formulation.  Each formulation builds its model, calls
the external solver, and on status `OPTIMAL` parses the variable values into
a solution, otherwise returns `None`.  The external solve is modelled as a
`SolverOutcome` input. -/

/-- Terminal status of an external solve. -/
inductive SolveStatus
  | optimal
  | infeasible
  | unbounded
  | limitReached
deriving DecidableEq

/-- The diagnostic prints of the formulations, identified by kind; their
interpolated payloads are solver statistics irrelevant to the solution. -/
inductive LogEvent
  | problemDefinition
  | advancedUsage
  | runtimeMessage
  | noOptimalMessage
deriving DecidableEq

/-- Python errors the façade's dispatch can raise. -/
inductive PyErr
  | typeError
  | indexError
deriving DecidableEq

/-- A solution value: partition form (separator plus shore lists, the dict
the F1/F2 family returns) or the bare separator list of F3/F4. -/
inductive Solution (n : ℕ)
  | partition (sep : Finset (Fin n)) (shores : List (Finset (Fin n)))
  | separator (sep : Finset (Fin n))
deriving DecidableEq

/-- What one external `solve` call hands back: a terminal status and binary
variable values (the shore-indexed `ξ` variables of the partition
formulations, and the per-node `x` variables of the separator ones). -/
structure SolverOutcome (n : ℕ) where
  status : SolveStatus
  shoreAssign : ℕ → Fin n → Bool
  sepAssign : Fin n → Bool

/-- Nodes read back into shore `i` (`variable.x == 1`). -/
def extractShore {n : ℕ} (a : ℕ → Fin n → Bool) (i : ℕ) : Finset (Fin n) :=
  univ.filter (fun v => a i v = true)

/-- The `K` shore node sets of a partition solution. -/
def extractShores {n : ℕ} (k : ℕ) (a : ℕ → Fin n → Bool) : List (Finset (Fin n)) :=
  (List.range k).map (extractShore a)

/-- The separator of a partition solution: the nodes on no shore
(`n_shores == 0`). -/
def extractSepOfPartition {n : ℕ} (k : ℕ) (a : ℕ → Fin n → Bool) : Finset (Fin n) :=
  univ.filter (fun v => ∀ i ∈ Finset.range k, a i v = false)

/-- The bare separator of formulations 3/4: nodes with `x[v] = 1`. -/
def extractSeparator {n : ℕ} (x : Fin n → Bool) : Finset (Fin n) :=
  univ.filter (fun v => x v = true)

/-- Diagnostic prints are suppressed when `quiet` is set. -/
def logIf (quiet : Bool) (evs : List LogEvent) : List LogEvent :=
  if quiet then [] else evs

/-- The type of an embedded formulation: graph, `k_value`, `b_value`,
`quiet`, solve outcome; result value plus printed diagnostics. -/
abbrev FormFn (n : ℕ) :=
  Graph n → ℕ → ℕ → Bool → SolverOutcome n → Option (Solution n) × List LogEvent

def formulation_1_ortools {n : ℕ} : FormFn n := fun _g k _B quiet o =>
  if o.status = SolveStatus.optimal then
    (some (Solution.partition (extractSepOfPartition k o.shoreAssign)
        (extractShores k o.shoreAssign)),
     logIf quiet [LogEvent.problemDefinition, LogEvent.advancedUsage])
  else
    (none, logIf quiet
      [LogEvent.problemDefinition, LogEvent.advancedUsage, LogEvent.noOptimalMessage])

def formulation_2_ortools {n : ℕ} : FormFn n := fun _g k _B quiet o =>
  if o.status = SolveStatus.optimal then
    (some (Solution.partition (extractSepOfPartition k o.shoreAssign)
        (extractShores k o.shoreAssign)),
     logIf quiet [LogEvent.problemDefinition, LogEvent.advancedUsage])
  else
    (none, logIf quiet
      [LogEvent.problemDefinition, LogEvent.advancedUsage, LogEvent.noOptimalMessage])

def formulation_3_ortools {n : ℕ} : FormFn n := fun _g _k _B quiet o =>
  if o.status = SolveStatus.optimal then
    (some (Solution.separator (extractSeparator o.sepAssign)),
     logIf quiet [LogEvent.problemDefinition, LogEvent.advancedUsage])
  else
    (none, logIf quiet
      [LogEvent.problemDefinition, LogEvent.advancedUsage, LogEvent.noOptimalMessage])

/-- `formulation_4_ortools(graph, _, b_value, quiet)`: the second positional
argument is ignored. -/
def formulation_4_ortools {n : ℕ} : FormFn n := fun _g _kIgnored _B quiet o =>
  if o.status = SolveStatus.optimal then
    (some (Solution.separator (extractSeparator o.sepAssign)),
     logIf quiet [LogEvent.problemDefinition, LogEvent.advancedUsage])
  else
    (none, logIf quiet
      [LogEvent.problemDefinition, LogEvent.advancedUsage, LogEvent.noOptimalMessage])

def formulation_1_gurobi {n : ℕ} : FormFn n := fun _g k _B quiet o =>
  if o.status = SolveStatus.optimal then
    (some (Solution.partition (extractSepOfPartition k o.shoreAssign)
        (extractShores k o.shoreAssign)),
     logIf quiet [LogEvent.runtimeMessage])
  else
    (none, logIf quiet [LogEvent.runtimeMessage, LogEvent.noOptimalMessage])

def formulation_1_alt_b_gurobi {n : ℕ} : FormFn n := fun _g k _B quiet o =>
  if o.status = SolveStatus.optimal then
    (some (Solution.partition (extractSepOfPartition k o.shoreAssign)
        (extractShores k o.shoreAssign)),
     logIf quiet [LogEvent.runtimeMessage])
  else
    (none, logIf quiet [LogEvent.runtimeMessage, LogEvent.noOptimalMessage])

def formulation_1_alt_c_gurobi {n : ℕ} : FormFn n := fun _g k _B quiet o =>
  if o.status = SolveStatus.optimal then
    (some (Solution.partition (extractSepOfPartition k o.shoreAssign)
        (extractShores k o.shoreAssign)),
     logIf quiet [LogEvent.runtimeMessage])
  else
    (none, logIf quiet [LogEvent.runtimeMessage, LogEvent.noOptimalMessage])

def formulation_2_gurobi {n : ℕ} : FormFn n := fun _g k _B quiet o =>
  if o.status = SolveStatus.optimal then
    (some (Solution.partition (extractSepOfPartition k o.shoreAssign)
        (extractShores k o.shoreAssign)),
     logIf quiet [LogEvent.runtimeMessage])
  else
    (none, logIf quiet [LogEvent.runtimeMessage, LogEvent.noOptimalMessage])

def formulation_3_gurobi {n : ℕ} : FormFn n := fun _g _k _B quiet o =>
  if o.status = SolveStatus.optimal then
    (some (Solution.separator (extractSeparator o.sepAssign)),
     logIf quiet [LogEvent.runtimeMessage])
  else
    (none, logIf quiet [LogEvent.runtimeMessage, LogEvent.noOptimalMessage])

def formulation_3_lazy_gurobi {n : ℕ} : FormFn n := fun _g _k _B quiet o =>
  if o.status = SolveStatus.optimal then
    (some (Solution.separator (extractSeparator o.sepAssign)),
     logIf quiet [LogEvent.runtimeMessage])
  else
    (none, logIf quiet [LogEvent.runtimeMessage, LogEvent.noOptimalMessage])

/-- `formulation_4_gurobi(graph, _, b_value, quiet)`: the second positional
argument is ignored. -/
def formulation_4_gurobi {n : ℕ} : FormFn n := fun _g _kIgnored _B quiet o =>
  if o.status = SolveStatus.optimal then
    (some (Solution.separator (extractSeparator o.sepAssign)),
     logIf quiet [LogEvent.runtimeMessage])
  else
    (none, logIf quiet [LogEvent.runtimeMessage, LogEvent.noOptimalMessage])

/-- `formulation_4_lazy_gurobi(graph, _, b_value, quiet)`: the second
positional argument is ignored. -/
def formulation_4_lazy_gurobi {n : ℕ} : FormFn n := fun _g _kIgnored _B quiet o =>
  if o.status = SolveStatus.optimal then
    (some (Solution.separator (extractSeparator o.sepAssign)),
     logIf quiet [LogEvent.runtimeMessage])
  else
    (none, logIf quiet [LogEvent.runtimeMessage, LogEvent.noOptimalMessage])

/-- The formulation list of the `"ortools"` dict entry. -/
def ortoolsForms (n : ℕ) : List (FormFn n) :=
  [formulation_1_ortools, formulation_2_ortools,
   formulation_3_ortools, formulation_4_ortools]

/-- The formulation list of the `"gurobi"` dict entry. -/
def gurobiForms (n : ℕ) : List (FormFn n) :=
  [formulation_1_gurobi, formulation_1_alt_b_gurobi,
   formulation_1_alt_c_gurobi, formulation_2_gurobi,
   formulation_3_gurobi, formulation_3_lazy_gurobi,
   formulation_4_gurobi, formulation_4_lazy_gurobi]

/-- The `formulations` dict of `cvsp_solver`, looked up with `dict.get`. -/
def formulationsFor (n : ℕ) (lib : String) : Option (List (FormFn n)) :=
  if lib = "ortools" then some (ortoolsForms n)
  else if lib = "gurobi" then some (gurobiForms n)
  else none

/-- Python list subscripting: negative indices count from the end, and an
index outside `-len .. len-1` raises `IndexError` (`none`). -/
def pyIndex {α : Type _} (l : List α) (i : Int) : Option α :=
  let j : Int := if i < 0 then i + l.length else i
  if h : 0 ≤ j ∧ j.toNat < l.length then some (l.get ⟨j.toNat, h.2⟩) else none

/-- `cvsp_solver(graph, library_name, formulation_index, k_value, b_value,
quiet)`: dispatch through the dict and list lookups, call the selected
formulation, return its result unchanged. -/
def cvspSolver {n : ℕ} (g : Graph n) (lib : String) (idx : Int) (k B : ℕ)
    (quiet : Bool) (o : SolverOutcome n) :
    Except PyErr (Option (Solution n) × List LogEvent) :=
  match formulationsFor n lib with
  | none => Except.error PyErr.typeError
  | some fs =>
      match pyIndex fs idx with
      | none => Except.error PyErr.indexError
      | some f => Except.ok (f g k B quiet o)

/-- The solution-value component of a façade result (what the caller
consumes; the log component is the printed diagnostics). -/
def valuePart {n : ℕ} (r : Except PyErr (Option (Solution n) × List LogEvent)) :
    Except PyErr (Option (Solution n)) :=
  r.map Prod.fst

/-! ## Feasibility predicates of the partition formulations -/

/-- Constraint "1b": each node lies on at most one shore
(`Σ_i ξ[i][v] ≤ 1`). -/
def AtMostOneShore {n : ℕ} (k : ℕ) (a : ℕ → Fin n → Bool) : Prop :=
  ∀ v, ((Finset.range k).filter (fun i => a i v = true)).card ≤ 1

instance {n : ℕ} (k : ℕ) (a : ℕ → Fin n → Bool) :
    Decidable (AtMostOneShore k a) := by
  unfold AtMostOneShore; infer_instance

/-- Constraint "1d": each shore holds at most `B` nodes
(`Σ_v ξ[i][v] ≤ b_value`). -/
def ShoreCapacity {n : ℕ} (k B : ℕ) (a : ℕ → Fin n → Bool) : Prop :=
  ∀ i ∈ Finset.range k, (extractShore a i).card ≤ B

instance {n : ℕ} (k B : ℕ) (a : ℕ → Fin n → Bool) :
    Decidable (ShoreCapacity k B a) := by
  unfold ShoreCapacity; infer_instance

/-- Constraint "2a" of formulation 2: at most one shore claims each clique
(`Σ_i ψ[i][q] ≤ 1`); `y i qi` is the `ψ` variable of shore `i` and the
clique at position `qi`. -/
def CliqueUniq (k nq : ℕ) (y : ℕ → ℕ → Bool) : Prop :=
  ∀ qi ∈ Finset.range nq, ((Finset.range k).filter (fun i => y i qi = true)).card ≤ 1

instance (k nq : ℕ) (y : ℕ → ℕ → Bool) : Decidable (CliqueUniq k nq y) := by
  unfold CliqueUniq; infer_instance

/-- Constraint "2b" of formulation 2: `ξ[i][v] ≤ ψ[i][q]` for every clique
`q` and every node `v ∈ q`. -/
def CliqueLink {n : ℕ} (k : ℕ) (cliques : List (Finset (Fin n)))
    (y : ℕ → ℕ → Bool) (a : ℕ → Fin n → Bool) : Prop :=
  ∀ i ∈ Finset.range k, ∀ qi : Fin cliques.length, ∀ v ∈ cliques.get qi,
    a i v = true → y i qi.val = true

instance {n : ℕ} (k : ℕ) (cliques : List (Finset (Fin n)))
    (y : ℕ → ℕ → Bool) (a : ℕ → Fin n → Bool) :
    Decidable (CliqueLink k cliques y a) := by
  unfold CliqueLink; infer_instance

/-! ## Concrete fixtures used to instantiate the statements -/

/-- A solve outcome with status `INFEASIBLE` and all variables at 0. -/
def outcomeInfeasible (n : ℕ) : SolverOutcome n :=
  ⟨SolveStatus.infeasible, fun _ _ => false, fun _ => false⟩

/-- A shore assignment on two nodes: node 0 on shore 0, node 1 unassigned. -/
def witnessAssign : ℕ → Fin 2 → Bool :=
  fun i v => decide (i = 0 ∧ v.val = 0)

/-- The maximal cliques of the two-node edgeless graph: two singletons. -/
def witnessCliques : List (Finset (Fin 2)) :=
  [{0}, {1}]

end CVSP

namespace CVSP

open Finset

/-! # Theorems -/

/-! ## Ceiling division -/

theorem ceilDiv_le {m B t : ℕ} (hB : 1 ≤ B) (h : m ≤ B * t) : ceilDiv m B ≤ t := by
  unfold ceilDiv
  rw [Nat.div_le_iff_le_mul_add_pred hB]
  omega

theorem ceilDiv_mono {m m' : ℕ} (B : ℕ) (h : m ≤ m') : ceilDiv m B ≤ ceilDiv m' B :=
  Nat.div_le_div_right (by omega)

theorem lt_ceilDiv_of_lt {i m B : ℕ} (hB : 1 ≤ B) (hi : i < m) : i / B < ceilDiv m B := by
  unfold ceilDiv
  have h1 : i / B ≤ (m - 1) / B := Nat.div_le_div_right (by omega)
  have h2 : m + B - 1 = (m - 1) + B := by omega
  rw [h2, Nat.add_div_right _ (by omega)]
  omega

/-! ## The packing-oracle ILP -/

theorem sum_binWeight {m : ℕ} (assign : Fin m → Fin m) :
    ∑ j, binWeight assign j = m := by
  unfold binWeight
  rw [← Finset.card_eq_sum_card_fiberwise (f := assign) (fun i _ => mem_univ (assign i))]
  simp

theorem packObj_lower {m B : ℕ} (hB : 1 ≤ B) {p : PackPoint m}
    (hp : PackFeasible m B p) : ceilDiv m B ≤ packObj p := by
  refine ceilDiv_le hB ?_
  have h1 : ∑ j, binWeight p.1 j ≤ ∑ j, (if p.2 j = true then B else 0) :=
    Finset.sum_le_sum (fun j _ => hp j)
  have h2 : ∑ j, (if p.2 j = true then B else 0) = B * packObj p := by
    rw [Finset.sum_ite, Finset.sum_const, Finset.sum_const]
    simp [packObj, mul_comm]
  rw [sum_binWeight] at h1
  omega

theorem canonicalPack_weight_le (m B : ℕ) (hB : 1 ≤ B) (j : Fin m) :
    binWeight (canonicalPack m B).1 j ≤ B := by
  unfold binWeight canonicalPack
  have hcard : (Finset.Ico (j.val * B) (j.val * B + B)).card = B := by
    rw [Nat.card_Ico]; omega
  refine le_trans (Finset.card_le_card_of_injOn (fun i => i.val) ?_ ?_) (le_of_eq hcard)
  · intro i hi
    simp only [mem_filter, mem_univ, true_and, Fin.ext_iff] at hi
    simp only [Finset.mem_Ico]
    constructor
    · exact (Nat.le_div_iff_mul_le (by omega : 0 < B)).mp (le_of_eq hi.symm)
    · have h1 : i.val / B < j.val + 1 := by omega
      have h2 := (Nat.div_lt_iff_lt_mul (by omega : 0 < B)).mp h1
      calc i.val < (j.val + 1) * B := h2
        _ = j.val * B + B := by ring
  · exact fun a _ b _ h => Fin.ext h

theorem canonicalPack_feasible (m B : ℕ) (hB : 1 ≤ B) :
    PackFeasible m B (canonicalPack m B) := by
  intro j
  by_cases hc : j.val < ceilDiv m B
  · have : (canonicalPack m B).2 j = true := by
      simp [canonicalPack, hc]
    rw [this]
    simpa using canonicalPack_weight_le m B hB j
  · have hz : binWeight (canonicalPack m B).1 j = 0 := by
      unfold binWeight
      rw [Finset.card_eq_zero, Finset.filter_eq_empty_iff]
      intro i _
      simp only [canonicalPack, Fin.ext_iff]
      intro h
      exact hc (h ▸ lt_ceilDiv_of_lt hB i.isLt)
    have : (canonicalPack m B).2 j = false := by
      simp [canonicalPack, hc]
    rw [this]
    simp [hz]

theorem canonicalPack_obj_le (m B : ℕ) : packObj (canonicalPack m B) ≤ ceilDiv m B := by
  unfold packObj
  have hcard : (Finset.range (ceilDiv m B)).card = ceilDiv m B := Finset.card_range _
  rw [← hcard]
  apply Finset.card_le_card_of_injOn (fun j => j.val)
  · intro j hj
    simp only [mem_filter, mem_univ, true_and, canonicalPack, decide_eq_true_eq] at hj
    simpa using hj
  · exact fun a _ b _ h => Fin.ext h

theorem packVal_le_ceilDiv (m B : ℕ) (hB : 1 ≤ B) :
    packVal m B ≤ (ceilDiv m B : WithTop ℕ) := by
  have hmem : canonicalPack m B ∈
      (univ : Finset (PackPoint m)).filter (PackFeasible m B) := by
    rw [mem_filter]
    exact ⟨mem_univ _, canonicalPack_feasible m B hB⟩
  calc packVal m B ≤ (packObj (canonicalPack m B) : WithTop ℕ) := Finset.inf_le hmem
    _ ≤ (ceilDiv m B : WithTop ℕ) := by
        exact_mod_cast canonicalPack_obj_le m B

theorem packVal_eq_ceilDiv (m B : ℕ) (hB : 1 ≤ B) :
    packVal m B = (ceilDiv m B : WithTop ℕ) := by
  refine le_antisymm (packVal_le_ceilDiv m B hB) ?_
  refine Finset.le_inf ?_
  intro p hp
  rw [mem_filter] at hp
  exact_mod_cast packObj_lower hB hp.2

theorem packVal_zero_right {m : ℕ} (hm : 1 ≤ m) : packVal m 0 = ⊤ := by
  unfold packVal
  have : (univ : Finset (PackPoint m)).filter (PackFeasible m 0) = ∅ := by
    rw [Finset.filter_eq_empty_iff]
    intro p _
    intro hp
    have h1 : ∑ j, binWeight p.1 j ≤ ∑ _j : Fin m, 0 :=
      Finset.sum_le_sum (fun j _ => le_trans (hp j) (by split <;> omega))
    rw [sum_binWeight] at h1
    simp at h1
    omega
  rw [this, Finset.inf_empty]

theorem packVal_zero_left (B : ℕ) : packVal 0 B = 0 := by
  unfold packVal
  have hfeas : PackFeasible 0 B (id, fun _ => false) := fun j => j.elim0
  have hmem : ((id, fun _ => false) : PackPoint 0) ∈
      (univ : Finset (PackPoint 0)).filter (PackFeasible 0 B) := by
    rw [mem_filter]; exact ⟨mem_univ _, hfeas⟩
  have h0 : (packObj ((id, fun _ => false) : PackPoint 0) : WithTop ℕ) = 0 := by
    simp [packObj]
  refine le_antisymm ?_ (zero_le _)
  exact h0 ▸ Finset.inf_le hmem

theorem packVal_mono {m m' : ℕ} (B : ℕ) (h : m ≤ m') : packVal m B ≤ packVal m' B := by
  rcases Nat.eq_zero_or_pos B with hB | hB
  · subst hB
    rcases Nat.eq_zero_or_pos m with hm | hm
    · subst hm; rw [packVal_zero_left]; exact zero_le _
    · rw [packVal_zero_right hm, packVal_zero_right (le_trans hm h)]
  · rw [packVal_eq_ceilDiv m B hB, packVal_eq_ceilDiv m' B hB]
    exact_mod_cast ceilDiv_mono B h

theorem packCount_eq_obj {m B : ℕ} {p : PackPoint m} (hopt : IsPackOpt m B p) :
    packCount p = packObj p := by
  unfold packCount packObj
  congr 1
  apply Finset.filter_congr
  intro j _
  simp only [and_iff_left_iff_imp]
  intro hj
  by_contra hw
  have hw0 : binWeight p.1 j = 0 := by omega
  -- switch bin j off: still feasible, strictly smaller objective
  set q : PackPoint m := (p.1, fun j' => if j' = j then false else p.2 j') with hq
  have hfeas : PackFeasible m B q := by
    intro j'
    by_cases hj' : j' = j
    · subst hj'
      simp [hq, hw0]
    · have := hopt.1 j'
      simpa [hq, hj'] using this
  have hlt : packObj q < packObj p := by
    unfold packObj
    apply Finset.card_lt_card
    constructor
    · intro j' hj'
      rw [mem_filter] at hj' ⊢
      refine ⟨mem_univ _, ?_⟩
      by_cases h' : j' = j
      · subst h'; simp [hq] at hj'
      · simpa [hq, h'] using hj'.2
    · intro hsub
      have : j ∈ (univ : Finset (Fin m)).filter (fun j' => p.2 j' = true) := by
        rw [mem_filter]; exact ⟨mem_univ _, hj⟩
      have := hsub this
      rw [mem_filter] at this
      simp [hq] at this
  exact absurd (hopt.2 q hfeas) (by omega)

theorem packOpt_obj_eq {m B : ℕ} {p : PackPoint m} (hB : 1 ≤ B)
    (hopt : IsPackOpt m B p) : packObj p = ceilDiv m B := by
  refine le_antisymm ?_ (packObj_lower hB hopt.1)
  exact le_trans (hopt.2 _ (canonicalPack_feasible m B hB)) (canonicalPack_obj_le m B)

/-! ## Subset enumerators -/

theorem length_subsets {α : Type _} (l : List α) :
    (subsets l).length = 2 ^ l.length := by
  induction l with
  | nil => rfl
  | cons x xs ih =>
      simp only [subsets, List.length_append, List.length_map, ih, List.length_cons]
      ring

theorem mem_subsets_subset {α : Type _} {l : List α} {y : List α}
    (hy : y ∈ subsets l) : ∀ a ∈ y, a ∈ l := by
  induction l generalizing y with
  | nil =>
      simp only [subsets, List.mem_singleton] at hy
      subst hy; intro a ha; cases ha
  | cons x xs ih =>
      simp only [subsets, List.mem_append, List.mem_map] at hy
      rcases hy with ⟨z, hz, rfl⟩ | hy
      · intro a ha
        rcases List.mem_cons.mp ha with rfl | ha
        · exact List.mem_cons_self _ _
        · exact List.mem_cons_of_mem _ (ih hz a ha)
      · intro a ha
        exact List.mem_cons_of_mem _ (ih hy a ha)

theorem count_nil_subsets {α : Type _} [DecidableEq α] (l : List α) :
    (subsets l).count ([] : List α) = 1 := by
  induction l with
  | nil => rfl
  | cons x xs ih =>
      rw [subsets, List.count_append]
      have h0 : ((subsets xs).map (fun y => x :: y)).count ([] : List α) = 0 := by
        rw [List.count_eq_zero]
        intro hmem
        rcases List.mem_map.mp hmem with ⟨z, _, hz⟩
        cases hz
      rw [h0, ih]

theorem nodup_subsets {α : Type _} {l : List α} (h : l.Nodup) :
    (subsets l).Nodup := by
  induction l with
  | nil => simp [subsets]
  | cons x xs ih =>
      rw [List.nodup_cons] at h
      rw [subsets, List.nodup_append]
      refine ⟨?_, ih h.2, ?_⟩
      · exact (ih h.2).map (fun a b hab => by injection hab)
      · intro y hy hy2
        rcases List.mem_map.mp hy with ⟨z, _, rfl⟩
        exact h.1 (mem_subsets_subset hy2 x (List.mem_cons_self _ _))

theorem countP_nonempty_subsets {α : Type _} [DecidableEq α] (l : List α) :
    ((subsets l).filter (fun y => !y.isEmpty)).length = 2 ^ l.length - 1 := by
  have h1 : ((subsets l).filter (fun y => !y.isEmpty)).length
      = (subsets l).length - ((subsets l).filter (fun y => y.isEmpty)).length := by
    have := List.length_eq_length_filter_add (l := subsets l) (f := fun y => y.isEmpty)
    omega
  have h2 : ((subsets l).filter (fun y => y.isEmpty)).length
      = (subsets l).count ([] : List α) := by
    rw [List.count_eq_countP, List.countP_eq_length_filter]
    congr 1
    apply List.filter_congr
    intro y _
    cases y <;> simp
  rw [h1, h2, count_nil_subsets, length_subsets]

theorem sum_map_range'_eq {f : ℕ → ℕ} (s m : ℕ) :
    ((List.range' s m).map f).sum = ∑ i ∈ Finset.Ico s (s + m), f i := by
  induction m generalizing s with
  | zero => simp
  | succ m ih =>
      rw [List.range'_succ, List.map_cons, List.sum_cons, ih (s + 1)]
      have hb : s < s + (m + 1) := by omega
      conv_rhs => rw [Finset.sum_eq_sum_Ico_succ_bot hb f]
      have hbound : s + 1 + m = s + (m + 1) := by omega
      rw [hbound]

theorem sum_Ico_choose (n : ℕ) (hn : 1 ≤ n) :
    ∑ k ∈ Finset.Ico 1 n, n.choose k = 2 ^ n - 2 := by
  have htotal := Nat.sum_range_choose n
  have hsplit : ∑ k ∈ Finset.range (n + 1), n.choose k
      = n.choose 0 + ∑ k ∈ Finset.Ico 1 (n + 1), n.choose k := by
    rw [Finset.range_eq_Ico, Finset.sum_eq_sum_Ico_succ_bot (by omega)]
  have htop : ∑ k ∈ Finset.Ico 1 (n + 1), n.choose k
      = (∑ k ∈ Finset.Ico 1 n, n.choose k) + n.choose n :=
    Finset.sum_Ico_succ_top hn _
  have hpow : 2 ≤ 2 ^ n := by
    calc 2 = 2 ^ 1 := rfl
      _ ≤ 2 ^ n := Nat.pow_le_pow_right (by omega) hn
  simp only [Nat.choose_zero_right, Nat.choose_self] at hsplit htop
  omega

theorem length_flatMap_eq {α β : Type _} (l : List α) (f : α → List β) :
    (l.flatMap f).length = (l.map (fun a => (f a).length)).sum := by
  rw [List.flatMap, List.length_flatten, List.map_map]
  rfl

theorem length_wChoices {α : Type _} (V : List α) :
    (wChoices V).length = 2 ^ V.length - 2 := by
  rcases V with _ | ⟨x, xs⟩
  · rfl
  · have hn1 : 1 ≤ (x :: xs).length := by simp
    rw [wChoices, length_flatMap_eq]
    have hmap : (List.range' 1 ((x :: xs).length - 1)).map
          (fun k => (List.sublistsLen k (x :: xs)).length)
        = (List.range' 1 ((x :: xs).length - 1)).map
          (fun k => (x :: xs).length.choose k) := by
      apply List.map_congr_left
      intro k _
      rw [List.length_sublistsLen]
    rw [hmap, sum_map_range'_eq]
    have h2 : 1 + ((x :: xs).length - 1) = (x :: xs).length := by omega
    rw [h2, sum_Ico_choose _ hn1]

theorem nodup_wChoices {α : Type _} {V : List α} (h : V.Nodup) :
    (wChoices V).Nodup := by
  rw [wChoices, List.nodup_flatMap]
  constructor
  · exact fun k _ => List.nodup_sublistsLen k h
  · have hr : (List.range' 1 (V.length - 1)).Nodup := List.nodup_range' 1 _
    refine List.Pairwise.imp_of_mem ?_ hr
    intro k k' _ _ hne
    intro y hy hy2
    have h1 := (List.mem_sublistsLen.mp hy).2
    have h2 := (List.mem_sublistsLen.mp hy2).2
    exact hne (h1 ▸ h2 ▸ rfl)

theorem mem_wChoices_shape {α : Type _} {V y : List α} (hy : y ∈ wChoices V) :
    y ≠ [] ∧ y.length < V.length ∧ y.Sublist V := by
  rw [wChoices, List.mem_flatMap] at hy
  rcases hy with ⟨k, hk, hy⟩
  rw [List.mem_range'_1] at hk
  rcases List.mem_sublistsLen.mp hy with ⟨hsub, hlen⟩
  refine ⟨?_, ?_, hsub⟩
  · intro h; subst h; simp at hlen; omega
  · omega

/-! ## Components and cover cuts -/

theorem subset_neighbStep {n : ℕ} (g : Graph n) (w s : Finset (Fin n)) :
    s ⊆ neighbStep g w s :=
  Finset.subset_union_left

theorem neighbStep_mono {n : ℕ} (g : Graph n) {w w' s s' : Finset (Fin n)}
    (hw : w ⊆ w') (hs : s ⊆ s') : neighbStep g w s ⊆ neighbStep g w' s' := by
  intro u hu
  rw [neighbStep, mem_union] at hu ⊢
  rcases hu with hu | hu
  · exact Or.inl (hs hu)
  · rw [mem_filter] at hu
    rcases hu.2 with ⟨v, hv, hadj⟩
    exact Or.inr (mem_filter.mpr ⟨hw hu.1, ⟨v, hs hv, hadj⟩⟩)

theorem compIter_mono {n : ℕ} (g : Graph n) (t : ℕ) {w w' s s' : Finset (Fin n)}
    (hw : w ⊆ w') (hs : s ⊆ s') : compIter g w t s ⊆ compIter g w' t s' := by
  induction t generalizing s s' with
  | zero => exact hs
  | succ t ih => exact ih (neighbStep_mono g hw hs)

theorem subset_compIter {n : ℕ} (g : Graph n) (w : Finset (Fin n)) (t : ℕ)
    (s : Finset (Fin n)) : s ⊆ compIter g w t s := by
  induction t generalizing s with
  | zero => exact subset_rfl
  | succ t ih => exact subset_trans (subset_neighbStep g w s) (ih _)

theorem mem_component_self {n : ℕ} (g : Graph n) (w : Finset (Fin n)) (v : Fin n) :
    v ∈ component g w v :=
  subset_compIter g w n {v} (mem_singleton_self v)

theorem component_mono {n : ℕ} (g : Graph n) {w w' : Finset (Fin n)} (v : Fin n)
    (hw : w ⊆ w') : component g w v ⊆ component g w' v :=
  compIter_mono g n hw subset_rfl

theorem hasBigComp_mono {n : ℕ} {g : Graph n} {w w' : Finset (Fin n)} {B : ℕ}
    (hw : w ⊆ w') (h : HasBigComp g w B) : HasBigComp g w' B := by
  rcases h with ⟨v, hvw, hcard⟩
  exact ⟨v, hw hvw, lt_of_lt_of_le hcard (card_le_card (component_mono g v hw))⟩

theorem addsCut_iff {n : ℕ} {g : Graph n} {K B : ℕ} {w : Finset (Fin n)} :
    AddsCut g K B w ↔ HasBigComp g w B ∨ (K : WithTop ℕ) < packVal w.card B := by
  unfold AddsCut owVal
  by_cases h : HasBigComp g w B
  · simp [h, WithTop.coe_lt_top]
  · simp [h]

theorem addsCut_mono {n : ℕ} {g : Graph n} {K B : ℕ} {w w' : Finset (Fin n)}
    (hw : w ⊆ w') (h : AddsCut g K B w) : AddsCut g K B w' := by
  rw [addsCut_iff] at h ⊢
  rcases h with hbc | hpv
  · exact Or.inl (hasBigComp_mono hw hbc)
  · exact Or.inr (lt_of_lt_of_le hpv (packVal_mono B (card_le_card hw)))

theorem not_addsCut_empty {n : ℕ} (g : Graph n) (K B : ℕ) :
    ¬ AddsCut g K B (∅ : Finset (Fin n)) := by
  rw [addsCut_iff]
  rintro (⟨v, hv, _⟩ | h)
  · exact absurd hv (not_mem_empty v)
  · rw [card_empty, packVal_zero_left] at h
    exact absurd h (not_lt_of_ge (zero_le _))

theorem mem_wFinsets {n : ℕ} {w : Finset (Fin n)} :
    w ∈ wFinsets n ↔ 1 ≤ w.card ∧ w.card ≤ n - 1 := by
  unfold wFinsets
  rw [List.mem_flatMap]
  constructor
  · rintro ⟨k, hk, hw⟩
    rw [List.mem_range'_1] at hk
    rcases List.mem_map.mp hw with ⟨l, hl, rfl⟩
    rcases List.mem_sublistsLen.mp hl with ⟨hsub, hlen⟩
    have hnd : l.Nodup := hsub.nodup (List.nodup_finRange n)
    rw [List.toFinset_card_of_nodup hnd, hlen]
    omega
  · rintro ⟨h1, h2⟩
    set l := (List.finRange n).filter (fun v => decide (v ∈ w)) with hldef
    have hsubl : l.Sublist (List.finRange n) := List.filter_sublist _
    have hnd : l.Nodup := hsubl.nodup (List.nodup_finRange n)
    have htf : l.toFinset = w := by
      ext v
      rw [List.mem_toFinset, hldef, List.mem_filter]
      simp [List.mem_finRange]
    have hlen : l.length = w.card := by
      rw [← htf, List.toFinset_card_of_nodup hnd]
    refine ⟨w.card, ?_, ?_⟩
    · rw [List.mem_range'_1]; omega
    · exact List.mem_map.mpr ⟨l, List.mem_sublistsLen.mpr ⟨hsubl, hlen⟩, htf⟩

theorem mem_foldr_filter {α : Type _} (p : α → Prop) [DecidablePred p]
    (l : List α) (x : α) :
    x ∈ l.foldr (fun w acc => if p w then w :: acc else acc) [] ↔ x ∈ l ∧ p x := by
  induction l with
  | nil => simp
  | cons a l ih =>
      simp only [List.foldr_cons]
      by_cases h : p a
      · rw [if_pos h]
        rw [List.mem_cons, ih, List.mem_cons]
        constructor
        · rintro (rfl | ⟨h1, h2⟩)
          · exact ⟨Or.inl rfl, h⟩
          · exact ⟨Or.inr h1, h2⟩
        · rintro ⟨rfl | h1, h2⟩
          · exact Or.inl rfl
          · exact Or.inr ⟨h1, h2⟩
      · rw [if_neg h, ih, List.mem_cons]
        constructor
        · rintro ⟨h1, h2⟩
          exact ⟨Or.inr h1, h2⟩
        · rintro ⟨rfl | h1, h2⟩
          · exact absurd h2 h
          · exact ⟨h1, h2⟩

theorem mem_foldr_append {α β : Type _} (f : α → List β) (l : List α) (x : β) :
    x ∈ l.foldr (fun a acc => f a ++ acc) [] ↔ ∃ a ∈ l, x ∈ f a := by
  induction l with
  | nil => simp
  | cons a l ih => simp [List.mem_append, ih]

theorem mem_f3CoverCuts {n : ℕ} {g : Graph n} {K B : ℕ} {w : Finset (Fin n)} :
    w ∈ f3CoverCuts g K B ↔ w ∈ wFinsets n ∧ AddsCut g K B w :=
  mem_foldr_filter (AddsCut g K B) (wFinsets n) w

theorem mem_componentsList {n : ℕ} {g : Graph n} {w C : Finset (Fin n)} :
    C ∈ componentsList g w ↔ ∃ v ∈ w, C = component g w v := by
  unfold componentsList
  rw [List.mem_dedup, List.mem_map]
  constructor
  · rintro ⟨v, hv, rfl⟩
    rw [List.mem_filter] at hv
    exact ⟨v, by simpa using hv.2, rfl⟩
  · rintro ⟨v, hv, rfl⟩
    exact ⟨v, List.mem_filter.mpr ⟨List.mem_finRange v, by simpa using hv⟩, rfl⟩

/-! ## Lazy/eager agreement for formulation 3 -/

theorem lazyAccepts_eagerFeasible {n : ℕ} {g : Graph n} {K B : ℕ} {x : Fin n → Bool}
    (h : LazyAccepts g K B x) : EagerFeasible g K B x := by
  intro w hw
  rw [mem_f3CoverCuts] at hw
  by_contra hno
  push_neg at hno
  have hsub : w ⊆ complSet x := by
    intro v hv
    rw [complSet, mem_filter]
    refine ⟨mem_univ v, ?_⟩
    have := hno v hv
    revert this
    cases x v <;> simp
  exact h (addsCut_mono hsub hw.2)

theorem eagerFeasible_lazyAccepts {n : ℕ} {g : Graph n} {K B : ℕ} {x : Fin n → Bool}
    (hx : EagerFeasible g K B x) (hsome : ∃ v, x v = true) : LazyAccepts g K B x := by
  intro hcut
  have hne : complSet x ≠ ∅ := by
    intro h0
    rw [h0] at hcut
    exact not_addsCut_empty g K B hcut
  have hproper : complSet x ≠ univ := by
    rcases hsome with ⟨v, hv⟩
    intro hu
    have hvm : v ∈ complSet x := hu ▸ mem_univ v
    rw [complSet, mem_filter, hv] at hvm
    exact absurd hvm.2 (by simp)
  have hmem : complSet x ∈ wFinsets n := by
    rw [mem_wFinsets]
    have hc1 : 0 < (complSet x).card :=
      card_pos.mpr (nonempty_iff_ne_empty.mpr hne)
    have hc2 : (complSet x).card < n := by
      have := (Finset.card_lt_iff_ne_univ _).mpr hproper
      simpa using this
    omega
  rcases hx (complSet x) (mem_f3CoverCuts.mpr ⟨hmem, hcut⟩) with ⟨v, hv, hvt⟩
  rw [complSet, mem_filter] at hv
  rw [hvt] at hv
  exact absurd hv.2 (by simp)

theorem eagerOptVal_le_lazyOptVal {n : ℕ} (g : Graph n) (K B : ℕ) :
    eagerOptVal g K B ≤ lazyOptVal g K B := by
  refine Finset.le_inf ?_
  intro x hx
  rw [mem_filter] at hx
  exact Finset.inf_le (mem_filter.mpr ⟨mem_univ _, lazyAccepts_eagerFeasible hx.2⟩)

theorem lazyOptVal_le_eagerOptVal {n : ℕ} (g : Graph n) (K B : ℕ)
    (H : ¬ AddsCut g K B univ ∨ ∃ w ∈ wFinsets n, AddsCut g K B w) :
    lazyOptVal g K B ≤ eagerOptVal g K B := by
  refine Finset.le_inf ?_
  intro x hx
  rw [mem_filter] at hx
  by_cases hsome : ∃ v, x v = true
  · exact Finset.inf_le
      (mem_filter.mpr ⟨mem_univ _, eagerFeasible_lazyAccepts hx.2 hsome⟩)
  · push_neg at hsome
    have hcompl : complSet x = univ := by
      ext v
      simp only [complSet, mem_filter, mem_univ, true_and, iff_true]
      have := hsome v
      revert this
      cases x v <;> simp
    rcases H with hH | ⟨w0, hw0, hcut0⟩
    · have hacc : LazyAccepts g K B x := by
        show ¬ AddsCut g K B (complSet x)
        rw [hcompl]
        exact hH
      exact Finset.inf_le (mem_filter.mpr ⟨mem_univ _, hacc⟩)
    · rcases hx.2 w0 (mem_f3CoverCuts.mpr ⟨hw0, hcut0⟩) with ⟨v, _, hvt⟩
      exact absurd hvt (by simp [hsome v])

/-! ## Dispatch and formulation results -/

theorem pyIndex_mem {α : Type _} {l : List α} {i : Int} {a : α}
    (h : pyIndex l i = some a) : a ∈ l := by
  dsimp only [pyIndex] at h
  split at h
  all_goals split at h
  all_goals first
    | (injection h with h
       exact h ▸ List.get_mem _ _ _)
    | cases h

theorem pyIndex_none_of_out_of_range {α : Type _} (l : List α) (i : Int)
    (h : (l.length : Int) ≤ i ∨ i < -(l.length : Int)) : pyIndex l i = none := by
  unfold pyIndex
  rw [dif_neg]
  omega

theorem dispatched_value_none {n : ℕ} {lib : String} {fs : List (FormFn n)}
    (hfs : formulationsFor n lib = some fs) {f : FormFn n} (hf : f ∈ fs)
    (g : Graph n) (k B : ℕ) (quiet : Bool) (o : SolverOutcome n)
    (hst : o.status ≠ SolveStatus.optimal) : (f g k B quiet o).1 = none := by
  unfold formulationsFor at hfs
  split at hfs
  · injection hfs with hfs
    subst hfs
    simp only [ortoolsForms, List.mem_cons, List.not_mem_nil, or_false] at hf
    rcases hf with rfl | rfl | rfl | rfl <;>
      simp [formulation_1_ortools, formulation_2_ortools, formulation_3_ortools,
        formulation_4_ortools, hst]
  · split at hfs
    · injection hfs with hfs
      subst hfs
      simp only [gurobiForms, List.mem_cons, List.not_mem_nil, or_false] at hf
      rcases hf with rfl | rfl | rfl | rfl | rfl | rfl | rfl | rfl <;>
        simp [formulation_1_gurobi, formulation_1_alt_b_gurobi,
          formulation_1_alt_c_gurobi, formulation_2_gurobi, formulation_3_gurobi,
          formulation_3_lazy_gurobi, formulation_4_gurobi, formulation_4_lazy_gurobi,
          hst]
    · cases hfs

theorem dispatched_value_quiet_indep {n : ℕ} {lib : String} {fs : List (FormFn n)}
    (hfs : formulationsFor n lib = some fs) {f : FormFn n} (hf : f ∈ fs)
    (g : Graph n) (k B : ℕ) (q1 q2 : Bool) (o : SolverOutcome n) :
    (f g k B q1 o).1 = (f g k B q2 o).1 := by
  unfold formulationsFor at hfs
  split at hfs
  · injection hfs with hfs
    subst hfs
    simp only [ortoolsForms, List.mem_cons, List.not_mem_nil, or_false] at hf
    rcases hf with rfl | rfl | rfl | rfl <;>
      · simp only [formulation_1_ortools, formulation_2_ortools,
          formulation_3_ortools, formulation_4_ortools]
        split <;> rfl
  · split at hfs
    · injection hfs with hfs
      subst hfs
      simp only [gurobiForms, List.mem_cons, List.not_mem_nil, or_false] at hf
      rcases hf with rfl | rfl | rfl | rfl | rfl | rfl | rfl | rfl <;>
        · simp only [formulation_1_gurobi, formulation_1_alt_b_gurobi,
            formulation_1_alt_c_gurobi, formulation_2_gurobi, formulation_3_gurobi,
            formulation_3_lazy_gurobi, formulation_4_gurobi, formulation_4_lazy_gurobi]
          split <;> rfl
    · cases hfs

/-! ## Partition extraction -/

theorem extract_cover {n : ℕ} (k : ℕ) (a : ℕ → Fin n → Bool) (v : Fin n) :
    v ∈ extractSepOfPartition k a ∨ ∃ i ∈ Finset.range k, v ∈ extractShore a i := by
  by_cases h : ∀ i ∈ Finset.range k, a i v = false
  · exact Or.inl (mem_filter.mpr ⟨mem_univ v, h⟩)
  · push_neg at h
    rcases h with ⟨i, hi, hne⟩
    refine Or.inr ⟨i, hi, mem_filter.mpr ⟨mem_univ v, ?_⟩⟩
    revert hne
    cases a i v <;> simp

theorem extract_shores_disjoint {n : ℕ} {k : ℕ} {a : ℕ → Fin n → Bool}
    (h : AtMostOneShore k a) :
    ∀ i ∈ Finset.range k, ∀ j ∈ Finset.range k, i ≠ j →
      Disjoint (extractShore a i) (extractShore a j) := by
  intro i hi j hj hne
  rw [Finset.disjoint_left]
  intro v hvi hvj
  rw [extractShore, mem_filter] at hvi hvj
  have hset : ({i, j} : Finset ℕ) ⊆ (Finset.range k).filter (fun i => a i v = true) := by
    intro t ht
    rcases Finset.mem_insert.mp ht with rfl | ht
    · exact mem_filter.mpr ⟨hi, hvi.2⟩
    · have ht2 : t = j := Finset.mem_singleton.mp ht
      subst ht2
      exact mem_filter.mpr ⟨hj, hvj.2⟩
  have h2 : ({i, j} : Finset ℕ).card = 2 := Finset.card_pair hne
  have := Finset.card_le_card hset
  rw [h2] at this
  exact absurd (le_trans this (h v)) (by omega)

theorem extract_sep_shore_disjoint {n : ℕ} (k : ℕ) (a : ℕ → Fin n → Bool) :
    ∀ i ∈ Finset.range k, Disjoint (extractSepOfPartition k a) (extractShore a i) := by
  intro i hi
  rw [Finset.disjoint_left]
  intro v hvs hvi
  rw [extractSepOfPartition, mem_filter] at hvs
  rw [extractShore, mem_filter] at hvi
  have := hvs.2 i hi
  rw [hvi.2] at this
  cases this

theorem clique_atMostOneShore {n : ℕ} {k : ℕ} {cliques : List (Finset (Fin n))}
    {y : ℕ → ℕ → Bool} {a : ℕ → Fin n → Bool}
    (hcov : ∀ v : Fin n, ∃ qi : Fin cliques.length, v ∈ cliques.get qi)
    (h2a : CliqueUniq k cliques.length y)
    (h2b : CliqueLink k cliques y a) : AtMostOneShore k a := by
  intro v
  by_contra hcard
  push_neg at hcard
  rcases Finset.one_lt_card.mp hcard with ⟨i, hi, j, hj, hne⟩
  rw [mem_filter] at hi hj
  rcases hcov v with ⟨qi, hqi⟩
  have hyi : y i qi.val = true := h2b i hi.1 qi v hqi hi.2
  have hyj : y j qi.val = true := h2b j hj.1 qi v hqi hj.2
  have hset : ({i, j} : Finset ℕ) ⊆ (Finset.range k).filter (fun t => y t qi.val = true) := by
    intro t ht
    rcases Finset.mem_insert.mp ht with rfl | ht
    · exact mem_filter.mpr ⟨hi.1, hyi⟩
    · have ht2 : t = j := Finset.mem_singleton.mp ht
      subst ht2
      exact mem_filter.mpr ⟨hj.1, hyj⟩
  have h2 : ({i, j} : Finset ℕ).card = 2 := Finset.card_pair hne
  have hle := Finset.card_le_card hset
  rw [h2] at hle
  have := h2a qi.val (Finset.mem_range.mpr qi.isLt)
  omega

theorem cvspSolver_eq_of_lookup {n : ℕ} {lib : String} {fs : List (FormFn n)}
    (g : Graph n) (idx : Int) (k B : ℕ) (quiet : Bool) (o : SolverOutcome n)
    (hfs : formulationsFor n lib = some fs) :
    cvspSolver g lib idx k B quiet o
      = match pyIndex fs idx with
        | none => Except.error PyErr.indexError
        | some f => Except.ok (f g k B quiet o) := by
  unfold cvspSolver
  rw [hfs]

/-! # Claims -/

set_option maxRecDepth 40000 in
/-- Claim C1 (code bug).  The spec's oracle contract says the minimum bin
count for the *connected components as indivisible weighted items* is
returned, and the docstring of `n_bins_to_pack_gurobi` itself says it packs
"the connected components of the given graph".  The code instead creates one
unit-weight item per *node*.  Failing input: the graph of three disjoint
edges (components of sizes 2, 2, 2) with capacity `B = 3`.  The code's ILP
(on the 6 nodes) has optimum `⌈6/3⌉ = 2`, while packing the three
indivisible components of weight 2 into capacity-3 bins needs 3 bins, as
`specMinBins` (written from the spec's words) shows. -/
theorem c1_oracle_packs_nodes_not_components :
    (componentsList threeEdgesGraph6 (Finset.univ : Finset (Fin 6))).map Finset.card
        = [2, 2, 2]
    ∧ packVal 6 3 = (2 : WithTop ℕ)
    ∧ specMinBins [2, 2, 2] 3 = (3 : WithTop ℕ) := by
  refine ⟨by decide, ?_, by decide⟩
  rw [packVal_eq_ceilDiv 6 3 (by omega)]
  rfl

/-- Claim C10 (confirmed).  For `n ≥ 1` nodes and capacity `B ≥ 1`, any
optimal point of the oracle's sub-ILP makes the code's read-back bin count
equal `⌈n/B⌉`; in particular the returned count depends only on the node
count of the subgraph (the ILP of `n_bins_to_pack_gurobi` /
`n_bins_to_pack_ortools` uses only `graph.nodes()`), not on its edges or
components. -/
theorem c10_oracle_returns_ceil {n B : ℕ} (p : PackPoint n) (_hn : 1 ≤ n)
    (hB : 1 ≤ B) (hp : IsPackOpt n B p) : packCount p = ceilDiv n B := by
  rw [packCount_eq_obj hp, packOpt_obj_eq hB hp]

set_option maxRecDepth 100000 in
/-- Witness for C10 at `n = 3`, `B = 2`: the canonical packing is optimal
and the read-back count is `⌈3/2⌉ = 2`. -/
theorem c10_witness :
    1 ≤ 3 ∧ 1 ≤ 2 ∧ IsPackOpt 3 2 (canonicalPack 3 2)
    ∧ packCount (canonicalPack 3 2) = ceilDiv 3 2 := by
  have hopt : IsPackOpt 3 2 (canonicalPack 3 2) := by decide
  exact ⟨by omega, by omega, hopt,
    c10_oracle_returns_ceil (canonicalPack 3 2) (by omega) (by omega) hopt⟩

/-- Claim C4 (confirmed).  In eager F3, a candidate subset `w` receives the
cover constraint `Σ_{v∈w} x[v] ≥ 1` exactly when it is enumerated in `W` and
either some connected component of the induced subgraph exceeds `B` (packing
number treated as infinite) or the oracle's optimal bin count exceeds `K`
(`formulation_3_gurobi` and `formulation_3_ortools` run the same loop). -/
theorem c4_f3_cover_cut_iff {n : ℕ} (g : Graph n) (K B : ℕ) (w : Finset (Fin n)) :
    w ∈ f3CoverCuts g K B ↔
      w ∈ wFinsets n ∧ (HasBigComp g w B ∨ (K : WithTop ℕ) < packVal w.card B) := by
  rw [mem_f3CoverCuts, addsCut_iff]

/-- Claim C5 (confirmed).  F4 ignores `k_value` entirely (its eager cut list
is the same function for every value of the ignored argument), the eager
mode adds one cover constraint per connected component `C` of an enumerated
subset with `|C| = B + 1` exactly, and the lazy callback cuts the components
of the incumbent's complement with `|C| > B`. -/
theorem c5_f4_structural_cuts {n : ℕ} (g : Graph n) (k k' B : ℕ)
    (x : Fin n → Bool) (C : Finset (Fin n)) :
    f4EagerCuts g k B = f4EagerCuts g k' B
    ∧ (C ∈ f4EagerCuts g k B ↔
        ∃ w ∈ wFinsets n, C ∈ componentsList g w ∧ C.card = B + 1)
    ∧ (C ∈ f4LazyCuts g B x ↔
        C ∈ componentsList g (complSet x) ∧ B < C.card) := by
  refine ⟨rfl, ?_, ?_⟩
  · unfold f4EagerCuts
    rw [mem_foldr_append]
    constructor
    · rintro ⟨w, hw, hC⟩
      rw [List.mem_filter] at hC
      exact ⟨w, hw, hC.1, by simpa using hC.2⟩
    · rintro ⟨w, hw, hC1, hC2⟩
      exact ⟨w, hw, List.mem_filter.mpr ⟨hC1, by simpa using hC2⟩⟩
  · unfold f4LazyCuts
    rw [List.mem_filter]
    simp

/-- Counterexample to claim C3 as stated.  The claim says both enumerators
yield exactly `2^n - 1` distinct non-empty subsets.  For `V = [0]` the
eager `W` construction ranges over sizes `range(1, 1) = []` and yields no
subset at all (`2^1 - 1 = 1` expected), and in general it also omits the
full set; the recursive `subsets` function moreover yields the empty list
among its `2^n` results. -/
theorem c3_counterexample :
    wChoices [(0 : ℕ)] = ([] : List (List ℕ))
    ∧ subsets [(0 : ℕ)] = [[0], []]
    ∧ 2 ^ 1 - 1 ≠ 0 :=
  ⟨rfl, rfl, by omega⟩

/-- Claim C3 (corrected).  For a duplicate-free node list of length `n`, the
recursive `subsets` function yields all `2^n` subsets, each exactly once, of
which `2^n - 1` are non-empty; the eager `W` construction yields exactly
`2^n - 2` subsets, each exactly once, every one of them non-empty and a
proper sublist of the node list (the full set is not enumerated). -/
theorem c3_enumerator_counts {α : Type _} [DecidableEq α] (l : List α)
    (h : l.Nodup) :
    (subsets l).length = 2 ^ l.length
    ∧ (subsets l).Nodup
    ∧ ((subsets l).filter (fun y => !y.isEmpty)).length = 2 ^ l.length - 1
    ∧ (wChoices l).length = 2 ^ l.length - 2
    ∧ (wChoices l).Nodup
    ∧ ∀ y ∈ wChoices l, y ≠ [] ∧ y.length < l.length :=
  ⟨length_subsets l, nodup_subsets h, countP_nonempty_subsets l,
   length_wChoices l, nodup_wChoices h,
   fun _ hy => ⟨(mem_wChoices_shape hy).1, (mem_wChoices_shape hy).2.1⟩⟩

/-- Witness for C3 on the concrete node list `[0, 1]`. -/
theorem c3_witness :
    ([0, 1] : List ℕ).Nodup
    ∧ ((subsets [0, 1]).length = 2 ^ 2
       ∧ (subsets ([0, 1] : List ℕ)).Nodup
       ∧ ((subsets [0, 1]).filter (fun y => !y.isEmpty)).length = 2 ^ 2 - 1
       ∧ (wChoices [0, 1]).length = 2 ^ 2 - 2
       ∧ (wChoices ([0, 1] : List ℕ)).Nodup
       ∧ ∀ y ∈ wChoices ([0, 1] : List ℕ), y ≠ [] ∧ y.length < 2) :=
  ⟨by decide, c3_enumerator_counts [0, 1] (by decide)⟩

/-- Counterexample to claim C2 as stated.  Formulation index `-1` is outside
the `gurobi` library's range `0 .. 7`, yet `cvsp_solver` does not fail:
Python's negative list indexing dispatches to the last formulation
(`formulation_4_lazy_gurobi`), which here runs and returns `None` for an
infeasible outcome. -/
theorem c2_counterexample :
    cvspSolver pathGraph2 "gurobi" (-1) 3 3 true (outcomeInfeasible 2)
      = Except.ok (none, []) := rfl

/-- Claim C2 (corrected).  An unrecognized library name fails with a
`TypeError` (subscripting the `None` from `dict.get`), and a formulation
index at or beyond the library's count, or below minus the count, fails with
an `IndexError`; both happen at dispatch, before any formulation (and hence
any solver variable) is touched.  But a negative index within
`-count .. -1` dispatches Python-style from the end instead of failing, and
no dedicated `InvalidFormulation` error exists. -/
theorem c2_dispatch_errors {n : ℕ} (g : Graph n) (idx : Int) (k B : ℕ)
    (quiet : Bool) (o : SolverOutcome n) :
    ((8 ≤ idx ∨ idx < -8) →
      cvspSolver g "gurobi" idx k B quiet o = Except.error PyErr.indexError)
    ∧ ((4 ≤ idx ∨ idx < -4) →
      cvspSolver g "ortools" idx k B quiet o = Except.error PyErr.indexError)
    ∧ (∀ lib : String, lib ≠ "ortools" → lib ≠ "gurobi" →
      cvspSolver g lib idx k B quiet o = Except.error PyErr.typeError) := by
  refine ⟨?_, ?_, ?_⟩
  · intro h
    have hrange : ((gurobiForms n).length : Int) ≤ idx
        ∨ idx < -((gurobiForms n).length : Int) := by
      rw [show (gurobiForms n).length = 8 from rfl]
      omega
    rw [cvspSolver_eq_of_lookup g idx k B quiet o
        (rfl : formulationsFor n "gurobi" = some (gurobiForms n)),
      pyIndex_none_of_out_of_range (gurobiForms n) idx hrange]
  · intro h
    have hrange : ((ortoolsForms n).length : Int) ≤ idx
        ∨ idx < -((ortoolsForms n).length : Int) := by
      rw [show (ortoolsForms n).length = 4 from rfl]
      omega
    rw [cvspSolver_eq_of_lookup g idx k B quiet o
        (rfl : formulationsFor n "ortools" = some (ortoolsForms n)),
      pyIndex_none_of_out_of_range (ortoolsForms n) idx hrange]
  · intro lib h1 h2
    unfold cvspSolver formulationsFor
    rw [if_neg h1, if_neg h2]

/-- Witness for C2: a too-large index, a too-negative index, and an unknown
library name all fail at dispatch. -/
theorem c2_witness :
    cvspSolver pathGraph2 "gurobi" 100 3 3 true (outcomeInfeasible 2)
        = Except.error PyErr.indexError
    ∧ cvspSolver pathGraph2 "ortools" (-5) 3 3 true (outcomeInfeasible 2)
        = Except.error PyErr.indexError
    ∧ cvspSolver pathGraph2 "scip" 0 3 3 true (outcomeInfeasible 2)
        = Except.error PyErr.typeError :=
  ⟨(c2_dispatch_errors pathGraph2 100 3 3 true (outcomeInfeasible 2)).1
      (Or.inl (by omega)),
   (c2_dispatch_errors pathGraph2 (-5) 3 3 true (outcomeInfeasible 2)).2.1
      (Or.inr (by omega)),
   (c2_dispatch_errors pathGraph2 0 3 3 true (outcomeInfeasible 2)).2.2
      "scip" (by decide) (by decide)⟩

/-- Claim C6 (confirmed).  For any feasible assignment of the fixed-K
formulations, the extracted partition solution covers every node (each node
lands in the separator or on some shore), the separator and the `K` shores
are pairwise disjoint, and every shore has at most `B` nodes.  The "at most
one shore per node" fact is constraint "1b" for F1 and its alt-b/alt-c
variants (whose adjacency encodings differ but share "1b" and "1d"); for F2
it follows from the clique constraints "2a" and "2b" because every node lies
in some maximal clique, as the second conjunct shows. -/
theorem c6_partition_validity {n : ℕ} (k B : ℕ) (a : ℕ → Fin n → Bool)
    (cliques : List (Finset (Fin n))) (y : ℕ → ℕ → Bool) :
    (AtMostOneShore k a → ShoreCapacity k B a →
      ((extractSepOfPartition k a ∪ (Finset.range k).biUnion (extractShore a)
          = univ)
       ∧ (∀ i ∈ Finset.range k, ∀ j ∈ Finset.range k, i ≠ j →
            Disjoint (extractShore a i) (extractShore a j))
       ∧ (∀ i ∈ Finset.range k,
            Disjoint (extractSepOfPartition k a) (extractShore a i))
       ∧ (∀ i ∈ Finset.range k, (extractShore a i).card ≤ B)))
    ∧ ((∀ v : Fin n, ∃ qi : Fin cliques.length, v ∈ cliques.get qi) →
        CliqueUniq k cliques.length y → CliqueLink k cliques y a →
        AtMostOneShore k a) := by
  constructor
  · intro h1 h2
    refine ⟨?_, extract_shores_disjoint h1, extract_sep_shore_disjoint k a, h2⟩
    ext v
    simp only [mem_univ, iff_true, mem_union, Finset.mem_biUnion]
    rcases extract_cover k a v with h | ⟨i, hi, hv⟩
    · exact Or.inl h
    · exact Or.inr ⟨i, hi, hv⟩
  · exact clique_atMostOneShore

/-- Witness for C6 on two nodes, one shore of capacity 1: node 0 on shore 0,
node 1 in the separator, with the singleton cliques of the edgeless graph. -/
theorem c6_witness :
    (AtMostOneShore 1 witnessAssign ∧ ShoreCapacity 1 1 witnessAssign
      ∧ ((extractSepOfPartition 1 witnessAssign
            ∪ (Finset.range 1).biUnion (extractShore witnessAssign) = univ)
         ∧ (∀ i ∈ Finset.range 1, ∀ j ∈ Finset.range 1, i ≠ j →
              Disjoint (extractShore witnessAssign i) (extractShore witnessAssign j))
         ∧ (∀ i ∈ Finset.range 1,
              Disjoint (extractSepOfPartition 1 witnessAssign)
                (extractShore witnessAssign i))
         ∧ (∀ i ∈ Finset.range 1, (extractShore witnessAssign i).card ≤ 1)))
    ∧ AtMostOneShore 1 witnessAssign := by
  have h1 : AtMostOneShore 1 witnessAssign := by decide
  have h2 : ShoreCapacity 1 1 witnessAssign := by decide
  have hcov : ∀ v : Fin 2, ∃ qi : Fin witnessCliques.length,
      v ∈ witnessCliques.get qi := by decide
  have h2a : CliqueUniq 1 witnessCliques.length (fun _ _ => true) := by decide
  have h2b : CliqueLink 1 witnessCliques (fun _ _ => true) witnessAssign := by decide
  have h := c6_partition_validity (n := 2) 1 1 witnessAssign witnessCliques
    (fun _ _ => true)
  exact ⟨⟨h1, h2, h.1 h1 h2⟩, h.2 hcov h2a h2b⟩

/-- Claim C7 (confirmed).  Whenever the external solve terminates with any
status other than `OPTIMAL` (infeasible, unbounded, or a resource limit),
every dispatched formulation returns `None` as its solution value rather
than raising, and `cvsp_solver` hands that formulation result through
unchanged. -/
theorem c7_no_solution_propagates {n : ℕ} (g : Graph n) (lib : String)
    (idx : Int) (k B : ℕ) (quiet : Bool) (o : SolverOutcome n)
    (hst : o.status ≠ SolveStatus.optimal) :
    ∀ fs f, formulationsFor n lib = some fs → pyIndex fs idx = some f →
      (f g k B quiet o).1 = none
      ∧ cvspSolver g lib idx k B quiet o = Except.ok (f g k B quiet o) := by
  intro fs f hfs hpi
  refine ⟨dispatched_value_none hfs (pyIndex_mem hpi) g k B quiet o hst, ?_⟩
  rw [cvspSolver_eq_of_lookup g idx k B quiet o hfs, hpi]

/-- Witness for C7: an infeasible outcome through `gurobi` formulation 0. -/
theorem c7_witness :
    (outcomeInfeasible 2).status ≠ SolveStatus.optimal
    ∧ formulationsFor 2 "gurobi" = some (gurobiForms 2)
    ∧ pyIndex (gurobiForms 2) 0 = some formulation_1_gurobi
    ∧ ((formulation_1_gurobi pathGraph2 3 3 true (outcomeInfeasible 2)).1 = none
       ∧ cvspSolver pathGraph2 "gurobi" 0 3 3 true (outcomeInfeasible 2)
          = Except.ok (formulation_1_gurobi pathGraph2 3 3 true (outcomeInfeasible 2))) :=
  ⟨by decide, rfl, rfl,
   c7_no_solution_propagates pathGraph2 "gurobi" 0 3 3 true (outcomeInfeasible 2)
     (by decide) (gurobiForms 2) formulation_1_gurobi rfl rfl⟩

/-- Counterexample to claim C8 as stated.  On the two-node path with
`K = 2`, `B = 1` (well within 12 nodes), eager F3 enumerates only the
proper subsets, none of which triggers a cover constraint, so its optimum
separator size is 0; the lazy callback also examines the full node set
(the complement of the empty incumbent separator), whose single component
of size 2 exceeds `B`, so the lazy optimum is 1. -/
theorem c8_counterexample :
    eagerOptVal pathGraph2 2 1 = 0 ∧ lazyOptVal pathGraph2 2 1 = 1 := by
  constructor <;> decide

/-- Claim C8 (corrected).  For an instance of at most 12 nodes, eager and
lazy F3 have the same optimal objective (separator size) whenever the cut
the eager mode cannot enumerate (for `w = V`) is not the decisive one: that
is, whenever the full node set fails the cut test, or some enumerated
proper subset also triggers it.  (On the counterexample instance neither
side condition holds, and the optima genuinely differ.) -/
theorem c8_lazy_eager_equivalence {n : ℕ} (g : Graph n) (K B : ℕ)
    (_hn : n ≤ 12)
    (H : ¬ AddsCut g K B univ ∨ ∃ w ∈ wFinsets n, AddsCut g K B w) :
    eagerOptVal g K B = lazyOptVal g K B :=
  le_antisymm (eagerOptVal_le_lazyOptVal g K B)
    (lazyOptVal_le_eagerOptVal g K B H)

/-- Witness for C8 on two isolated nodes with `K = 2`, `B = 1`: the full
node set packs into 2 bins, so the side condition holds and the two optima
agree. -/
theorem c8_witness :
    2 ≤ 12 ∧ ¬ AddsCut isolatedGraph2 2 1 (Finset.univ : Finset (Fin 2))
    ∧ eagerOptVal isolatedGraph2 2 1 = lazyOptVal isolatedGraph2 2 1 := by
  have hH : ¬ AddsCut isolatedGraph2 2 1 (Finset.univ : Finset (Fin 2)) :=
    of_decide_eq_false (by rfl)
  exact ⟨by omega, hH,
    c8_lazy_eager_equivalence isolatedGraph2 2 1 (by omega) (Or.inl hH)⟩

/-- Claim C9 (confirmed).  The solution value `cvsp_solver` returns is the
same for `quiet=True` and `quiet=False`, whatever the graph, library,
formulation index, `K`, `B` and solve outcome: the flag only gates the
printed diagnostics. -/
theorem c9_quiet_has_no_behavioral_effect {n : ℕ} (g : Graph n) (lib : String)
    (idx : Int) (k B : ℕ) (o : SolverOutcome n) :
    valuePart (cvspSolver g lib idx k B true o)
      = valuePart (cvspSolver g lib idx k B false o) := by
  rcases hfs : formulationsFor n lib with _ | fs
  · unfold cvspSolver
    rw [hfs]
  · rw [cvspSolver_eq_of_lookup g idx k B true o hfs,
      cvspSolver_eq_of_lookup g idx k B false o hfs]
    rcases hpi : pyIndex fs idx with _ | f
    · rfl
    · dsimp only [valuePart, Except.map]
      rw [dispatched_value_quiet_indep hfs (pyIndex_mem hpi) g k B true false o]

end CVSP
